import Mathlib

/-!
Shallow embedding of the SubgraphX explainer of this repository.  The
`SubgraphX` structure and its methods are translated directly from
`src/algorithm/subgraph_x.py`.  The `MCTS` search engine, the `mc_l_shapley`
estimator and the task enumerations live in modules that are not part of the
provided sources (`src/algorithm/mcts.py`, `src/algorithm/shapley.py`,
`src/utils/task_enum.py`); they are modelled from the specification, as noted
on each definition.
-/

namespace SubgraphXModel

/-- Modelled from the spec: the `Task` enumeration of `src/utils/task_enum.py`
(missing from the sources) — graph classification, node classification, link
prediction (spec section 3, "Task descriptor"). -/
inductive Task where
  | graph_classification
  | node_classification
  | link_prediction
deriving DecidableEq

/-- Modelled from the spec: the `Experiment` enumeration of
`src/utils/task_enum.py` (missing from the sources); experiment logging is out
of scope (spec section 1), so its value is only stored and threaded through,
never inspected by the search. -/
inductive Experiment where
  | generic
deriving DecidableEq

/-- Graph input (embedding of `torch_geometric.data.Data`): the nodes are the
identifiers `0, …, numNodes - 1` and `edges` is the edge list (spec section 3,
"Graph"). -/
structure Data where
  numNodes : Nat
  edges : List (Nat × Nat)

/-- External scorer (spec section 6): probability of the predicted class when
only the given node list is active, `score(graph, active_node_mask)`. -/
abbrev Model : Type := Data → List Nat → ℚ

/-- Pluggable value function (spec sections 4.1 and 9): arguments are the
graph, the model, the Monte Carlo sample count `t`, the receptive-field depth
`num_layers`, and the node set to score. -/
abbrev ValueFunc : Type := Data → Model → Nat → Nat → List Nat → ℚ

/-- Nodes of `S` together with all direct neighbors of nodes of `S`. -/
def neighborsStep (g : Data) (S : List Nat) : List Nat :=
  g.edges.foldr
    (fun e acc =>
      (if e.1 ∈ S then [e.2] else []) ++ (if e.2 ∈ S then [e.1] else []) ++ acc)
    S

/-- Modelled from the spec: the L-hop neighborhood of a node set — the set of
nodes within `L` hops of `S` (spec Glossary, "Receptive field"). -/
def lhop (g : Data) : Nat → List Nat → List Nat
  | 0, S => S.dedup
  | L + 1, S => lhop g L (neighborsStep g S).dedup

/-- Linear congruential pseudo-random step used to model the Monte Carlo
coalition sampling with a fixed seed. -/
def lcgNext (s : Nat) : Nat := (1103515245 * s + 12345) % 2147483648

/-- Modelled from the spec: draw one random coalition from the sampling pool —
each pool node is kept or dropped by one pseudo-random draw (spec section 4.1,
"draw t independent random coalitions"). Returns the coalition and the
advanced random state. -/
def chooseCoalition (pool : List Nat) (seed : Nat) : List Nat × Nat :=
  pool.foldl
    (fun acc v =>
      let s := lcgNext acc.2
      (if s % 2 == 1 then acc.1 ++ [v] else acc.1, s))
    ([], seed)

/-- Modelled from the spec: sum over `k` Monte Carlo samples of the marginal
contribution `score(coalition ∪ node_set) - score(coalition)` (spec
section 4.1). -/
def shapleySamples (g : Data) (model : Model) (pool S : List Nat) :
    Nat → Nat → ℚ
  | 0, _ => 0
  | k + 1, seed =>
    let cs := chooseCoalition pool seed
    (model g (cs.1 ++ S) - model g cs.1) + shapleySamples g model pool S k cs.2

/-- Modelled from the spec: the `mc_l_shapley` estimator of
`src/algorithm/shapley.py` (missing from the sources).  It averages, over `t`
Monte Carlo coalitions drawn with a fixed sampling seed from the L-hop
neighborhood of the node set excluding the node set itself, the difference of
the scores with and without the node set active (spec section 4.1).  Scores
are rationals, so the degenerate non-finite samples of spec section 7 cannot
occur in the model. -/
def mc_l_shapley : ValueFunc := fun g model t L S =>
  let pool := (lhop g L S).filter (fun v => decide (v ∉ S))
  if t == 0 then 0 else shapleySamples g model pool S t 1 / (t : ℚ)

/-- Modelled from the spec: the constructor arguments of the `MCTS` class of
`src/algorithm/mcts.py` (missing from the sources), in the order they are
passed by `SubgraphX._get_mcts`. -/
structure MCTSConfig where
  graph : Data
  exp_weight : ℚ
  n_min : Nat
  value_func : ValueFunc
  model : Model
  t : Nat
  num_layers : Nat
  high2low : Bool
  max_children : Int
  task : Task
  nodes_to_keep : List Nat
  skip_to_leaves : Bool
  experiment : Option Experiment

/-- Modelled from the spec: one node of the search tree with its node set,
parent back-reference, owned children (as arena indices, spec section 9),
visit count `N`, total value `W`, cached immediate value and expansion flag
(spec section 3, "MCTSNode"). -/
structure MCTSNode where
  node_set : List Nat
  parent : Option Nat
  children : List Nat
  N : Nat
  W : ℚ
  immediate_value : ℚ
  expanded : Bool

/-- Placeholder node returned by out-of-range arena lookups; it is expanded
and terminal (empty node set), so the search never descends through it. -/
def dfltNode : MCTSNode :=
  { node_set := [], parent := none, children := [], N := 1, W := 0,
    immediate_value := 0, expanded := true }

/-- Number of edges of the subgraph induced by `S` that are incident to `v`
(spec section 4.2: candidates are ordered by node degree within the induced
subgraph). -/
def degIn (g : Data) (S : List Nat) (v : Nat) : Nat :=
  g.edges.countP
    (fun e => decide ((e.1 = v ∧ e.2 ∈ S) ∨ (e.2 = v ∧ e.1 ∈ S)))

/-- Insert a value into a list sorted by the boolean comparison `le`. -/
def insertByLe (le : Nat → Nat → Bool) (v : Nat) : List Nat → List Nat
  | [] => [v]
  | x :: xs => if le v x then v :: x :: xs else x :: insertByLe le v xs

/-- Insertion sort by the boolean comparison `le` (stable, so equal keys keep
their original order). -/
def sortByLe (le : Nat → Nat → Bool) : List Nat → List Nat
  | [] => []
  | x :: xs => insertByLe le x (sortByLe le xs)

/-- Modelled from the spec: the pruning-action generator of
`src/algorithm/mcts.py` (missing from the sources).  Legal actions remove one
node of `S` that is not a mandatory retained node; candidates are ordered by
degree in the induced subgraph, highest first when `high2low` and lowest first
otherwise, and truncated to `max_children` when `max_children ≥ 0` (spec
section 4.2). -/
def prunedCandidates (cfg : MCTSConfig) (S : List Nat) : List Nat :=
  let base := S.filter (fun v => decide (v ∉ cfg.nodes_to_keep))
  let le : Nat → Nat → Bool :=
    if cfg.high2low then fun a b => decide (degIn cfg.graph S b ≤ degIn cfg.graph S a)
    else fun a b => decide (degIn cfg.graph S a ≤ degIn cfg.graph S b)
  let sorted := sortByLe le base
  if cfg.max_children < 0 then sorted else sorted.take cfg.max_children.toNat

/-- Modelled from the spec: a node set is terminal when it has reached the
target size `n_min` or no legal pruning action remains (spec section 4.3 and
Glossary, "Leaf / Terminal node"). -/
def isTerm (cfg : MCTSConfig) (S : List Nat) : Bool :=
  decide (S.length ≤ cfg.n_min) || (prunedCandidates cfg S).isEmpty

/-- Modelled from the spec: the selection score balancing exploitation
`Q = W / N` against the exploration bonus
`exp_weight * sqrt(parent.N) / (1 + child.N)` (spec section 4.3). -/
def uct (cfg : MCTSConfig) (nodes : List MCTSNode) (iParent iChild : Nat) : ℚ :=
  let p := nodes.getD iParent dfltNode
  let c := nodes.getD iChild dfltNode
  c.W / (c.N : ℚ) + cfg.exp_weight * (Nat.sqrt p.N : ℚ) / (1 + (c.N : ℚ))

/-- Modelled from the spec: the selection phase — starting from node `i`,
repeatedly move to the child maximizing the selection score until reaching a
terminal or unexpanded node; returns the selection path of arena indices
(spec section 4.3, step 1).  `fuel` bounds the descent depth. -/
def selGo (cfg : MCTSConfig) (nodes : List MCTSNode) : Nat → Nat → List Nat
  | 0, i => [i]
  | fuel + 1, i =>
    let nd := nodes.getD i dfltNode
    if nd.expanded && !(isTerm cfg nd.node_set) then
      match nd.children with
      | [] => [i]
      | c :: cs =>
        let best := cs.foldl
          (fun b j => if uct cfg nodes i b < uct cfg nodes i j then j else b) c
        i :: selGo cfg nodes fuel best
    else [i]

/-- Modelled from the spec: a newly expanded child — its node set is the
parent set with one candidate removed, and its statistics are initialized to
`N = 1`, `W = immediate_value`, with the immediate value computed by the
configured value function (spec section 4.3, step 2). -/
def mkChild (cfg : MCTSConfig) (iParent : Nat) (S : List Nat) (v : Nat) : MCTSNode :=
  let s := S.erase v
  let val := cfg.value_func cfg.graph cfg.model cfg.t cfg.num_layers s
  { node_set := s, parent := some iParent, children := [], N := 1, W := val,
    immediate_value := val, expanded := false }

/-- Arena indices `base, base + 1, …, base + n - 1` for `n` freshly appended
children. -/
def idxRange (base : Nat) : Nat → List Nat
  | 0 => []
  | n + 1 => base :: idxRange (base + 1) n

/-- Modelled from the spec: the expansion phase — if the node at index `i` is
unexpanded and non-terminal, create all its children via the pruning-action
generator and initialize their statistics; when `skip_to_leaves` is enabled,
descend repeatedly through the first newly created child, always taking the
pruning action, until a terminal node set is reached within the same
iteration (spec section 4.3, step 2).  Returns the grown arena and the list
of indices descended through. -/
def expandGo (cfg : MCTSConfig) : Nat → List MCTSNode → Nat → List MCTSNode × List Nat
  | 0, nodes, _ => (nodes, [])
  | fuel + 1, nodes, i =>
    let nd := nodes.getD i dfltNode
    if nd.expanded || isTerm cfg nd.node_set then (nodes, [])
    else
      let children := (prunedCandidates cfg nd.node_set).map (mkChild cfg i nd.node_set)
      let idxs := idxRange nodes.length children.length
      let nodes' := nodes.set i { nd with expanded := true, children := idxs } ++ children
      if cfg.skip_to_leaves && decide (0 < children.length) then
        let r := expandGo cfg fuel nodes' nodes.length
        (r.1, nodes.length :: r.2)
      else (nodes', [])

/-- Modelled from the spec: backpropagation — along the path from the newly
evaluated node up to the root, increment each node's visit count `N` and add
the new node's value to its total value `W` (spec section 4.3, step 3). -/
def backprop (nodes : List MCTSNode) (path : List Nat) (v : ℚ) : List MCTSNode :=
  path.foldl
    (fun ns i =>
      let nd := ns.getD i dfltNode
      ns.set i { nd with N := nd.N + 1, W := nd.W + v })
    nodes

/-- Modelled from the spec: one full select → expand → evaluate →
backpropagate iteration on the node arena (spec section 4.3). -/
def stepNodes (cfg : MCTSConfig) (nodes : List MCTSNode) : List MCTSNode :=
  let fuel := cfg.graph.numNodes + 1
  let path := selGo cfg nodes fuel 0
  let sel := path.getLastD 0
  let r := expandGo cfg fuel nodes sel
  let full := path ++ r.2
  let leafIdx := full.getLastD 0
  let v := (r.1.getD leafIdx dfltNode).immediate_value
  backprop r.1 full v

/-- Modelled from the spec: the `MCTS` search object of
`src/algorithm/mcts.py` (missing from the sources) — the configuration plus
the arena of explored nodes, rooted at index `0` (spec sections 3 and 9). -/
structure MCTS where
  cfg : MCTSConfig
  nodes : List MCTSNode

/-- Error raised on invalid explanation requests (spec section 7). -/
inductive SubgraphXError where
  | invalidConfiguration
deriving DecidableEq

/-- Modelled from the spec: the root node — the full graph's node set, with
zeroed statistics and its immediate value from the configured value function
(spec section 4.4). -/
def rootNode (cfg : MCTSConfig) : MCTSNode :=
  let s := List.range cfg.graph.numNodes
  { node_set := s, parent := none, children := [], N := 0, W := 0,
    immediate_value := cfg.value_func cfg.graph cfg.model cfg.t cfg.num_layers s,
    expanded := false }

/-- Modelled from the spec: the `MCTS` constructor — it fails with
`InvalidConfiguration` when `n_min` exceeds the graph's node count or when a
mandatory retained node is not a node of the graph (spec section 7), and
otherwise builds the search tree rooted at the full graph's node set (spec
section 4.4). -/
def MCTS.init (cfg : MCTSConfig) : Except SubgraphXError MCTS :=
  if cfg.n_min ≤ cfg.graph.numNodes
      && cfg.nodes_to_keep.all (fun v => decide (v < cfg.graph.numNodes)) then
    .ok { cfg := cfg, nodes := [rootNode cfg] }
  else
    .error SubgraphXError.invalidConfiguration

/-- Modelled from the spec: `MCTS.search_one_iteration` — one search
iteration mutating only the node arena (spec section 4.3). -/
def MCTS.search_one_iteration (st : MCTS) : MCTS :=
  { st with nodes := stepNodes st.cfg st.nodes }

/-- Better of two nodes by immediate value; ties keep the first-discovered
node (spec section 4.4). -/
def pickBetter (b nd : MCTSNode) : MCTSNode :=
  if b.immediate_value < nd.immediate_value then nd else b

/-- Modelled from the spec: `MCTS.best_leaf_node` — scan all terminal nodes
discovered so far and return the one with the highest immediate value,
breaking ties in favour of the earliest discovered (spec section 4.4). -/
def MCTS.best_leaf_node (st : MCTS) : MCTSNode :=
  match st.nodes.filter (fun nd => isTerm st.cfg nd.node_set) with
  | [] => st.nodes.headD dfltNode
  | h :: tl => tl.foldl pickBetter h

/-- The `SubgraphX` explainer class of `src/algorithm/subgraph_x.py`; fields
in the order they are assigned in `__init__`. -/
structure SubgraphX where
  model : Model
  num_layers : Nat
  exp_weight : ℚ
  m : Nat
  t : Nat
  value_func : ValueFunc
  high2low : Bool
  max_children : Int
  task : Task
  experiment : Option Experiment

/-- Constructor of `SubgraphX.__init__` with its default arguments applied:
`high2low=False`, `max_children=-1`, `task=Task.GRAPH_CLASSIFICATION`,
`value_func=mc_l_shapley`, `experiment=None`. -/
def SubgraphX.make (model : Model) (num_layers : Nat) (exp_weight : ℚ)
    (m t : Nat) : SubgraphX :=
  { model := model, num_layers := num_layers, exp_weight := exp_weight,
    m := m, t := t, value_func := mc_l_shapley, high2low := false,
    max_children := -1, task := Task.graph_classification, experiment := none }

/-- Translation of `SubgraphX._get_mcts` (lines 41-45): construct the `MCTS`
search object, passing the instance configuration through and
`skip_to_leaves = not exhaustive`. -/
def SubgraphX.get_mcts (self : SubgraphX) (graph : Data) (n_min : Nat)
    (nodes_to_keep : List Nat) (exhaustive : Bool) :
    Except SubgraphXError MCTS :=
  MCTS.init
    { graph := graph, exp_weight := self.exp_weight, n_min := n_min,
      value_func := self.value_func, model := self.model, t := self.t,
      num_layers := self.num_layers, high2low := self.high2low,
      max_children := self.max_children, task := self.task,
      nodes_to_keep := nodes_to_keep, skip_to_leaves := !exhaustive,
      experiment := self.experiment }

/-- Translation of the `for iteration in range(self.m)` loop of
`SubgraphX.__call__` (lines 60-61): apply `search_one_iteration` `k` times in
order. -/
def runIters (st : MCTS) : Nat → MCTS
  | 0 => st
  | k + 1 => runIters st.search_one_iteration k

/-- Translation of `SubgraphX.__call__` (lines 47-65) in explicit
state-passing style: the first component is the instance after the call
(`__call__` assigns no attribute of `self`, so it is returned unchanged), the
second the returned value.  `nodes_to_keep = None` is replaced by the empty
list, the search object is built by `_get_mcts`, `m` iterations run, and the
pair `(best_leaf_node().node_set, mcts)` is returned. -/
def SubgraphX.callS (self : SubgraphX) (graph : Data) (n_min : Nat)
    (nodes_to_keep : Option (List Nat)) (exhaustive : Bool) :
    SubgraphX × Except SubgraphXError (List Nat × MCTS) :=
  let keep := match nodes_to_keep with
    | some l => l
    | none => []
  match self.get_mcts graph n_min keep exhaustive with
  | .error e => (self, .error e)
  | .ok mcts0 =>
    let mcts := runIters mcts0 self.m
    let explSet := mcts.best_leaf_node
    (self, .ok (explSet.node_set, mcts))

/-- The value returned by `SubgraphX.__call__` (lines 47-65). -/
def SubgraphX.call (self : SubgraphX) (graph : Data) (n_min : Nat)
    (nodes_to_keep : Option (List Nat)) (exhaustive : Bool) :
    Except SubgraphXError (List Nat × MCTS) :=
  (self.callS graph n_min nodes_to_keep exhaustive).2

/-- Translation of `SubgraphX.generate_mcts` (lines 67-70): return the mcts
object for in-depth experiments by delegating to `_get_mcts`. -/
def SubgraphX.generate_mcts (self : SubgraphX) (graph : Data) (n_min : Nat)
    (nodes_to_keep : List Nat) (exhaustive : Bool) :
    Except SubgraphXError MCTS :=
  self.get_mcts graph n_min nodes_to_keep exhaustive

/-! Helper lemmas about the sorting and pruning primitives. -/

theorem mem_insertByLe {le : Nat → Nat → Bool} {v a : Nat} :
    ∀ {l : List Nat}, a ∈ insertByLe le v l ↔ a = v ∨ a ∈ l
  | [] => by simp [insertByLe]
  | x :: xs => by
    simp only [insertByLe]
    split
    · simp [List.mem_cons]
    · rw [List.mem_cons, @mem_insertByLe le v a xs, List.mem_cons]
      tauto

theorem mem_sortByLe {le : Nat → Nat → Bool} {a : Nat} :
    ∀ {l : List Nat}, a ∈ sortByLe le l ↔ a ∈ l
  | [] => Iff.rfl
  | x :: xs => by
    simp only [sortByLe, mem_insertByLe, @mem_sortByLe le a xs, List.mem_cons]

theorem mem_prunedCandidates {cfg : MCTSConfig} {S : List Nat} {v : Nat}
    (h : v ∈ prunedCandidates cfg S) : v ∈ S ∧ v ∉ cfg.nodes_to_keep := by
  have hs : v ∈ S.filter (fun v => decide (v ∉ cfg.nodes_to_keep)) := by
    simp only [prunedCandidates] at h
    split at h
    · exact mem_sortByLe.mp h
    · exact mem_sortByLe.mp (List.mem_of_mem_take h)
  rcases List.mem_filter.mp hs with ⟨h1, h2⟩
  exact ⟨h1, of_decide_eq_true h2⟩

/-! Helper lemmas: the node sets stored in the arena are only ever grown by
appending children; updates by `List.set` never change a stored node set. -/

theorem map_nodeSet_set (ns : List MCTSNode) :
    ∀ (i : Nat) (nd' : MCTSNode),
    nd'.node_set = (ns.getD i dfltNode).node_set →
    (ns.set i nd').map (fun nd => nd.node_set) = ns.map (fun nd => nd.node_set) := by
  induction ns with
  | nil => intro i nd' _; simp
  | cons a as ih =>
    intro i nd' h
    cases i with
    | zero =>
      rw [List.set_cons_zero, List.map_cons, List.map_cons]
      rw [List.getD_cons_zero] at h
      rw [h]
    | succ k =>
      rw [List.set_cons_succ, List.map_cons, List.map_cons]
      rw [List.getD_cons_succ] at h
      rw [ih k nd' h]

theorem backprop_map : ∀ (path : List Nat) (nodes : List MCTSNode) (v : ℚ),
    (backprop nodes path v).map (fun nd => nd.node_set)
      = nodes.map (fun nd => nd.node_set)
  | [], nodes, v => rfl
  | i :: p, nodes, v => by
    have hstep : backprop nodes (i :: p) v
        = backprop
            (nodes.set i
              { nodes.getD i dfltNode with
                  N := (nodes.getD i dfltNode).N + 1,
                  W := (nodes.getD i dfltNode).W + v }) p v := rfl
    rw [hstep, backprop_map p, map_nodeSet_set]
    rfl

theorem mem_set_nodeSet {ns : List MCTSNode} {i : Nat} {nd' nd : MCTSNode}
    (hset : nd'.node_set = (ns.getD i dfltNode).node_set)
    (h : nd ∈ ns.set i nd') : ∃ nd0 ∈ ns, nd0.node_set = nd.node_set := by
  have hm : nd.node_set ∈ (ns.set i nd').map (fun x => x.node_set) :=
    List.mem_map_of_mem _ h
  rw [map_nodeSet_set ns i nd' hset] at hm
  exact List.mem_map.mp hm

theorem expandGo_map (cfg : MCTSConfig) :
    ∀ (fuel : Nat) (nodes : List MCTSNode) (i : Nat),
    ∃ l, (expandGo cfg fuel nodes i).1.map (fun nd => nd.node_set)
      = nodes.map (fun nd => nd.node_set) ++ l := by
  intro fuel
  induction fuel with
  | zero =>
    intro nodes i
    exact ⟨[], by simp [expandGo]⟩
  | succ fuel ih =>
    intro nodes i
    simp only [expandGo]
    by_cases hstop : ((nodes.getD i dfltNode).expanded
        || isTerm cfg (nodes.getD i dfltNode).node_set) = true
    · rw [if_pos hstop]
      exact ⟨[], by simp⟩
    · rw [if_neg hstop]
      set nd0 := nodes.getD i dfltNode with hnd
      set children :=
        (prunedCandidates cfg nd0.node_set).map (mkChild cfg i nd0.node_set)
        with hch
      set idxs := idxRange nodes.length children.length with hidxs
      have hmap : (nodes.set i { nd0 with expanded := true, children := idxs }
            ++ children).map (fun nd => nd.node_set)
          = nodes.map (fun nd => nd.node_set)
            ++ children.map (fun nd => nd.node_set) := by
        rw [List.map_append, map_nodeSet_set nodes i _ (by rw [← hnd])]
      by_cases hsk : (cfg.skip_to_leaves && decide (0 < children.length)) = true
      · rw [if_pos hsk]
        obtain ⟨l2, h2⟩ := ih
          (nodes.set i { nd0 with expanded := true, children := idxs } ++ children)
          nodes.length
        refine ⟨children.map (fun nd => nd.node_set) ++ l2, ?_⟩
        rw [h2, hmap, List.append_assoc]
      · rw [if_neg hsk]
        exact ⟨children.map (fun nd => nd.node_set), hmap⟩

theorem stepNodes_map (cfg : MCTSConfig) (nodes : List MCTSNode) :
    ∃ l, (stepNodes cfg nodes).map (fun nd => nd.node_set)
      = nodes.map (fun nd => nd.node_set) ++ l := by
  simp only [stepNodes]
  rw [backprop_map]
  exact expandGo_map cfg _ nodes _

/-! Invariant preservation: any property of node sets closed under legal
pruning actions holds for every node of the arena throughout the search. -/

theorem expandGo_inv (cfg : MCTSConfig) (Q : List Nat → Prop)
    (hQ : ∀ S v, Q S → v ∈ prunedCandidates cfg S → Q (S.erase v)) :
    ∀ (fuel : Nat) (nodes : List MCTSNode) (i : Nat),
    (∀ nd ∈ nodes, Q nd.node_set) →
    ∀ nd ∈ (expandGo cfg fuel nodes i).1, Q nd.node_set := by
  intro fuel
  induction fuel with
  | zero =>
    intro nodes i h
    simpa [expandGo] using h
  | succ fuel ih =>
    intro nodes i h
    simp only [expandGo]
    by_cases hstop : ((nodes.getD i dfltNode).expanded
        || isTerm cfg (nodes.getD i dfltNode).node_set) = true
    · rw [if_pos hstop]
      exact h
    · rw [if_neg hstop]
      set nd0 := nodes.getD i dfltNode with hnd
      have hi : i < nodes.length := by
        by_contra hlt
        push_neg at hlt
        have hd : nd0 = dfltNode := by
          rw [hnd]
          exact List.getD_eq_default _ _ hlt
        rw [hd] at hstop
        simp [dfltNode] at hstop
      have hQ0 : Q nd0.node_set := by
        have hm : nd0 ∈ nodes := by
          rw [hnd, List.getD_eq_getElem nodes dfltNode hi]
          exact List.getElem_mem hi
        exact h _ hm
      set children :=
        (prunedCandidates cfg nd0.node_set).map (mkChild cfg i nd0.node_set)
        with hch
      set idxs := idxRange nodes.length children.length with hidxs
      have hall : ∀ nd ∈ nodes.set i { nd0 with expanded := true, children := idxs }
          ++ children, Q nd.node_set := by
        intro nd hm
        rcases List.mem_append.mp hm with hm | hm
        · obtain ⟨nd1, hm1, he1⟩ := mem_set_nodeSet (by rw [← hnd]) hm
          rw [← he1]
          exact h _ hm1
        · rw [hch] at hm
          obtain ⟨v, hv, he⟩ := List.mem_map.mp hm
          rw [← he]
          exact hQ _ v hQ0 hv
      by_cases hsk : (cfg.skip_to_leaves && decide (0 < children.length)) = true
      · rw [if_pos hsk]
        exact ih _ nodes.length hall
      · rw [if_neg hsk]
        exact hall

theorem stepNodes_inv (cfg : MCTSConfig) (Q : List Nat → Prop)
    (hQ : ∀ S v, Q S → v ∈ prunedCandidates cfg S → Q (S.erase v))
    (nodes : List MCTSNode) (h : ∀ nd ∈ nodes, Q nd.node_set) :
    ∀ nd ∈ stepNodes cfg nodes, Q nd.node_set := by
  simp only [stepNodes]
  intro nd hmem
  have hm : nd.node_set
      ∈ (backprop (expandGo cfg (cfg.graph.numNodes + 1) nodes
          ((selGo cfg nodes (cfg.graph.numNodes + 1) 0).getLastD 0)).1 _ _).map
        (fun x => x.node_set) :=
    List.mem_map_of_mem _ hmem
  rw [backprop_map] at hm
  obtain ⟨nd0, h0, he⟩ := List.mem_map.mp hm
  rw [← he]
  exact expandGo_inv cfg Q hQ _ nodes _ h nd0 h0

theorem runIters_cfg (st : MCTS) : ∀ k, (runIters st k).cfg = st.cfg
  | 0 => rfl
  | k + 1 => by
    rw [runIters, runIters_cfg st.search_one_iteration k]
    rfl

theorem runIters_inv (Q : List Nat → Prop) :
    ∀ (k : Nat) (st : MCTS),
    (∀ S v, Q S → v ∈ prunedCandidates st.cfg S → Q (S.erase v)) →
    (∀ nd ∈ st.nodes, Q nd.node_set) →
    ∀ nd ∈ (runIters st k).nodes, Q nd.node_set
  | 0, st, _, h => h
  | k + 1, st, hQ, h => by
    rw [runIters]
    exact runIters_inv Q k st.search_one_iteration hQ
      (stepNodes_inv st.cfg Q hQ st.nodes h)

/-! Arena size never shrinks, so the arena stays non-empty. -/

theorem stepNodes_length (cfg : MCTSConfig) (nodes : List MCTSNode) :
    nodes.length ≤ (stepNodes cfg nodes).length := by
  obtain ⟨l, hl⟩ := stepNodes_map cfg nodes
  have hlen := congrArg List.length hl
  rw [List.length_map, List.length_append, List.length_map] at hlen
  omega

theorem runIters_length (st : MCTS) :
    ∀ k, st.nodes.length ≤ (runIters st k).nodes.length
  | 0 => le_refl _
  | k + 1 => by
    rw [runIters]
    exact le_trans (stepNodes_length st.cfg st.nodes)
      (runIters_length st.search_one_iteration k)

/-! Once a terminal node has been discovered it stays in the arena. -/

theorem hasTerm_of_map_append {cfg : MCTSConfig} {ns ns' : List MCTSNode}
    {l : List (List Nat)}
    (hm : ns'.map (fun nd => nd.node_set) = ns.map (fun nd => nd.node_set) ++ l)
    (h : ∃ nd ∈ ns, isTerm cfg nd.node_set = true) :
    ∃ nd ∈ ns', isTerm cfg nd.node_set = true := by
  obtain ⟨nd, hmem, ht⟩ := h
  have hin : nd.node_set ∈ ns'.map (fun x => x.node_set) := by
    rw [hm]
    exact List.mem_append_left _ (List.mem_map_of_mem _ hmem)
  obtain ⟨nd', hmem', he⟩ := List.mem_map.mp hin
  refine ⟨nd', hmem', ?_⟩
  rw [he]
  exact ht

theorem hasTerm_backprop {cfg : MCTSConfig} {ns : List MCTSNode} {p : List Nat}
    {v : ℚ} (h : ∃ nd ∈ ns, isTerm cfg nd.node_set = true) :
    ∃ nd ∈ backprop ns p v, isTerm cfg nd.node_set = true :=
  @hasTerm_of_map_append cfg ns (backprop ns p v) []
    (by rw [backprop_map, List.append_nil]) h

theorem hasTerm_stepNodes {cfg : MCTSConfig} {nodes : List MCTSNode}
    (h : ∃ nd ∈ nodes, isTerm cfg nd.node_set = true) :
    ∃ nd ∈ stepNodes cfg nodes, isTerm cfg nd.node_set = true := by
  obtain ⟨l, hl⟩ := stepNodes_map cfg nodes
  exact hasTerm_of_map_append hl h

theorem getD_append_length : ∀ (A B : List MCTSNode) (d : MCTSNode),
    (A ++ B).getD A.length d = B.getD 0 d
  | [], _, _ => rfl
  | a :: A, B, d => by
    rw [List.cons_append, List.length_cons, List.getD_cons_succ]
    exact getD_append_length A B d

theorem getD_set_append_length (ns : List MCTSNode) (i : Nat) (x : MCTSNode)
    (B : List MCTSNode) (d : MCTSNode) :
    (ns.set i x ++ B).getD ns.length d = B.getD 0 d := by
  rw [show ns.length = (ns.set i x).length from (List.length_set ns i x).symm,
    getD_append_length]

/-- When skip-to-leaves is enabled, expanding an unexpanded node with enough
fuel always leaves a terminal node in the arena: the expansion descends,
always taking the pruning action, until a node set of size at most `n_min` or
without legal actions is reached (spec section 4.3, step 2). -/
theorem expandGo_hasTerm (cfg : MCTSConfig) (hskip : cfg.skip_to_leaves = true) :
    ∀ (fuel : Nat) (nodes : List MCTSNode) (i : Nat),
    i < nodes.length → (nodes.getD i dfltNode).expanded = false →
    (nodes.getD i dfltNode).node_set.length ≤ fuel →
    ∃ nd ∈ (expandGo cfg fuel nodes i).1, isTerm cfg nd.node_set = true := by
  intro fuel
  induction fuel with
  | zero =>
    intro nodes i hi hexp hlen
    have hS : (nodes.getD i dfltNode).node_set = [] :=
      List.length_eq_zero.mp (Nat.le_zero.mp hlen)
    refine ⟨nodes.getD i dfltNode, ?_, ?_⟩
    · simp only [expandGo]
      rw [List.getD_eq_getElem nodes dfltNode hi]
      exact List.getElem_mem hi
    · rw [hS]
      simp [isTerm]
  | succ fuel ih =>
    intro nodes i hi hexp hlen
    simp only [expandGo, hexp, Bool.false_or]
    by_cases hterm : isTerm cfg (nodes.getD i dfltNode).node_set = true
    · rw [if_pos hterm]
      refine ⟨nodes.getD i dfltNode, ?_, hterm⟩
      rw [List.getD_eq_getElem nodes dfltNode hi]
      exact List.getElem_mem hi
    · rw [if_neg hterm]
      have hne : prunedCandidates cfg (nodes.getD i dfltNode).node_set ≠ [] := by
        intro hnil
        apply hterm
        unfold isTerm
        rw [hnil]
        simp
      cases hc : prunedCandidates cfg (nodes.getD i dfltNode).node_set with
      | nil => exact absurd hc hne
      | cons v vs =>
        have hv : v ∈ (nodes.getD i dfltNode).node_set :=
          (mem_prunedCandidates (hc ▸ List.mem_cons_self v vs)).1
        rw [if_pos (by rw [hskip]; simp)]
        apply ih
        · rw [List.length_append, List.length_set]
          simp
        · rw [getD_set_append_length]
          rfl
        · rw [getD_set_append_length]
          have hrfl : ((List.map (mkChild cfg i (nodes.getD i dfltNode).node_set)
              (v :: vs)).getD 0 dfltNode).node_set
              = (nodes.getD i dfltNode).node_set.erase v := rfl
          rw [hrfl, List.length_erase_of_mem hv]
          omega

/-- One search iteration starting from an arena whose root is unexpanded
leaves a terminal node in the arena when skip-to-leaves is enabled. -/
theorem stepNodes_hasTerm_root (cfg : MCTSConfig) (hskip : cfg.skip_to_leaves = true)
    (nodes : List MCTSNode) (h0 : 0 < nodes.length)
    (hexp : (nodes.getD 0 dfltNode).expanded = false)
    (hlen : (nodes.getD 0 dfltNode).node_set.length ≤ cfg.graph.numNodes + 1) :
    ∃ nd ∈ stepNodes cfg nodes, isTerm cfg nd.node_set = true := by
  simp only [stepNodes]
  have hsel : selGo cfg nodes (cfg.graph.numNodes + 1) 0 = [0] := by
    simp only [selGo]
    rw [hexp]
    simp
  rw [hsel]
  exact hasTerm_backprop (expandGo_hasTerm cfg hskip _ nodes 0 h0 hexp hlen)

theorem hasTerm_runIters (st : MCTS) :
    ∀ k, (∃ nd ∈ st.nodes, isTerm st.cfg nd.node_set = true) →
    ∃ nd ∈ (runIters st k).nodes, isTerm st.cfg nd.node_set = true
  | 0, h => h
  | k + 1, h => by
    rw [runIters]
    exact hasTerm_runIters st.search_one_iteration k (hasTerm_stepNodes h)

/-! Lemmas about `best_leaf_node`: it returns a member of the arena, it
returns a terminal node when one exists, and no discovered terminal node has
a larger immediate value. -/

theorem foldl_pickBetter_mem : ∀ (tl : List MCTSNode) (h : MCTSNode),
    tl.foldl pickBetter h ∈ h :: tl
  | [], h => List.mem_cons_self h []
  | x :: xs, h => by
    rw [List.foldl_cons]
    rcases List.mem_cons.mp (foldl_pickBetter_mem xs (pickBetter h x)) with h1 | h1
    · rw [h1]
      unfold pickBetter
      split
      · exact List.mem_cons_of_mem _ (List.mem_cons_self _ _)
      · exact List.mem_cons_self _ _
    · exact List.mem_cons_of_mem _ (List.mem_cons_of_mem _ h1)

theorem le_foldl_pickBetter : ∀ (tl : List MCTSNode) (h x : MCTSNode),
    x ∈ h :: tl → x.immediate_value ≤ (tl.foldl pickBetter h).immediate_value
  | [], h, x, hx => by
    rcases List.mem_cons.mp hx with h1 | h1
    · rw [h1]
      exact le_refl _
    · simp at h1
  | y :: ys, h, x, hx => by
    rw [List.foldl_cons]
    have hge : h.immediate_value ≤ (pickBetter h y).immediate_value ∧
        y.immediate_value ≤ (pickBetter h y).immediate_value := by
      unfold pickBetter
      split
      · exact ⟨le_of_lt (by assumption), le_refl _⟩
      · exact ⟨le_refl _, le_of_not_lt (by assumption)⟩
    rcases List.mem_cons.mp hx with h1 | h1
    · rw [h1]
      exact le_trans hge.1
        (le_foldl_pickBetter ys (pickBetter h y) _ (List.mem_cons_self _ _))
    · rcases List.mem_cons.mp h1 with h2 | h2
      · rw [h2]
        exact le_trans hge.2
          (le_foldl_pickBetter ys (pickBetter h y) _ (List.mem_cons_self _ _))
      · exact le_foldl_pickBetter ys (pickBetter h y) x (List.mem_cons_of_mem _ h2)

theorem best_leaf_node_mem (st : MCTS) (h : st.nodes ≠ []) :
    st.best_leaf_node ∈ st.nodes := by
  cases hf : st.nodes.filter (fun nd => isTerm st.cfg nd.node_set) with
  | nil =>
    simp only [MCTS.best_leaf_node, hf]
    cases hn : st.nodes with
    | nil => exact absurd hn h
    | cons a as => simp
  | cons hh tl =>
    simp only [MCTS.best_leaf_node, hf]
    have hm := foldl_pickBetter_mem tl hh
    rw [← hf] at hm
    exact List.mem_of_mem_filter hm

theorem best_leaf_node_isTerm (st : MCTS)
    (h : ∃ nd ∈ st.nodes, isTerm st.cfg nd.node_set = true) :
    st.best_leaf_node ∈ st.nodes ∧ isTerm st.cfg st.best_leaf_node.node_set = true := by
  obtain ⟨nd, hmem, ht⟩ := h
  cases hf : st.nodes.filter (fun nd => isTerm st.cfg nd.node_set) with
  | nil =>
    rw [List.filter_eq_nil_iff] at hf
    exact absurd ht (hf nd hmem)
  | cons hh tl =>
    have hm := foldl_pickBetter_mem tl hh
    rw [← hf] at hm
    constructor
    · simp only [MCTS.best_leaf_node, hf]
      exact List.mem_of_mem_filter hm
    · simp only [MCTS.best_leaf_node, hf]
      exact (List.mem_filter.mp hm).2

theorem best_leaf_node_ge (st : MCTS) (nd : MCTSNode) (hmem : nd ∈ st.nodes)
    (ht : isTerm st.cfg nd.node_set = true) :
    nd.immediate_value ≤ st.best_leaf_node.immediate_value := by
  have hmf : nd ∈ st.nodes.filter (fun nd => isTerm st.cfg nd.node_set) :=
    List.mem_filter.mpr ⟨hmem, ht⟩
  cases hf : st.nodes.filter (fun nd => isTerm st.cfg nd.node_set) with
  | nil =>
    rw [hf] at hmf
    simp at hmf
  | cons hh tl =>
    rw [hf] at hmf
    simp only [MCTS.best_leaf_node, hf]
    exact le_foldl_pickBetter tl hh nd hmf

/-- The configuration record that `SubgraphX._get_mcts` passes to the `MCTS`
constructor. -/
def mkCfg (inst : SubgraphX) (g : Data) (n : Nat) (keep : List Nat)
    (ex : Bool) : MCTSConfig :=
  { graph := g, exp_weight := inst.exp_weight, n_min := n,
    value_func := inst.value_func, model := inst.model, t := inst.t,
    num_layers := inst.num_layers, high2low := inst.high2low,
    max_children := inst.max_children, task := inst.task,
    nodes_to_keep := keep, skip_to_leaves := !ex,
    experiment := inst.experiment }

theorem get_mcts_eq (inst : SubgraphX) (g : Data) (n : Nat) (keep : List Nat)
    (ex : Bool) :
    inst.get_mcts g n keep ex = MCTS.init (mkCfg inst g n keep ex) := rfl

/-- The success case of `SubgraphX.__call__`: when the call returns a pair,
the configuration was valid, the tree is the `m`-fold iteration of the search
from the freshly constructed root, and the explanation is the best leaf's
node set. -/
theorem call_ok_elim (inst : SubgraphX) (g : Data) (n : Nat) (keep : List Nat)
    (ex : Bool) (ns : List Nat) (tree : MCTS)
    (h : inst.call g n (some keep) ex = .ok (ns, tree)) :
    (decide (n ≤ g.numNodes)
      && keep.all (fun v => decide (v < g.numNodes))) = true
    ∧ tree = runIters
        (MCTS.mk (mkCfg inst g n keep ex) [rootNode (mkCfg inst g n keep ex)])
        inst.m
    ∧ ns = tree.best_leaf_node.node_set := by
  simp only [SubgraphX.call, SubgraphX.callS] at h
  rw [get_mcts_eq] at h
  unfold MCTS.init at h
  split at h
  · simp at h
  · rename_i mcts0 heq
    simp only at h
    have hpair : ((runIters mcts0 inst.m).best_leaf_node.node_set,
        runIters mcts0 inst.m) = (ns, tree) := by
      injection h
    have h1 := congrArg Prod.fst hpair
    have h2 := congrArg Prod.snd hpair
    simp only at h1 h2
    split at heq
    · rename_i hcond
      have hm0 : mcts0 = MCTS.mk (mkCfg inst g n keep ex)
          [rootNode (mkCfg inst g n keep ex)] := by
        injection heq with heq
        exact heq.symm
      refine ⟨?_, ?_, ?_⟩
      · exact hcond
      · rw [← h2, hm0]
      · rw [← h1, ← h2]
    · simp at heq

/-! Claim C10: a `None` / omitted `nodes_to_keep` argument behaves as the
empty retained-node list. -/

/-- C10: calling a `SubgraphX` instance with `nodes_to_keep` omitted or equal
to `None` is equivalent to calling it with the empty list of retained nodes:
the `None` default is replaced by `[]` before the search is constructed. -/
theorem call_none_eq_call_nil (inst : SubgraphX) (g : Data) (n : Nat)
    (ex : Bool) :
    inst.call g n none ex = inst.call g n (some []) ex := rfl

/-! Claim C8: `__call__` writes no attribute of the instance, so successive
explanation requests share no search state. -/

/-- C8: calling a `SubgraphX` instance writes no attribute of the instance —
in the state-passing translation `callS` the instance comes back unchanged —
and therefore a second call on the instance returned by a first call produces
exactly what a call on the original instance produces: successive requests
share no search state. -/
theorem call_frame (inst : SubgraphX) (g : Data) (n : Nat)
    (ntk : Option (List Nat)) (ex : Bool) :
    (inst.callS g n ntk ex).1 = inst
    ∧ ∀ (g' : Data) (n' : Nat) (ntk' : Option (List Nat)) (ex' : Bool),
      ((inst.callS g n ntk ex).1.callS g' n' ntk' ex').2
        = (inst.callS g' n' ntk' ex').2 := by
  have h1 : (inst.callS g n ntk ex).1 = inst := by
    unfold SubgraphX.callS
    rcases ntk with _ | l <;>
      · simp only
        split <;> rfl
  exact ⟨h1, fun g' n' ntk' ex' => by rw [h1]⟩

/-! Claim C9: `generate_mcts` builds the same search object that `__call__`
uses internally (both delegate to `_get_mcts`). -/

/-- C9: the search object returned by `generate_mcts` is the one built by
`_get_mcts`, and `__call__` on the same arguments runs its iterations on
exactly that object: the call's result is obtained by mapping the iteration
loop and best-leaf extraction over the result of `generate_mcts`. -/
theorem generate_mcts_matches_call (inst : SubgraphX) (g : Data) (n : Nat)
    (keep : List Nat) (ex : Bool) :
    inst.generate_mcts g n keep ex = inst.get_mcts g n keep ex
    ∧ inst.call g n (some keep) ex
      = (inst.generate_mcts g n keep ex).map
          (fun st0 => ((runIters st0 inst.m).best_leaf_node.node_set,
            runIters st0 inst.m)) := by
  refine ⟨rfl, ?_⟩
  unfold SubgraphX.call SubgraphX.callS SubgraphX.generate_mcts
  cases h : inst.get_mcts g n keep ex <;> simp [h, Except.map]

theorem runIters_eq_iterate : ∀ (k : Nat) (st : MCTS),
    runIters st k = MCTS.search_one_iteration^[k] st
  | 0, _ => rfl
  | k + 1, st => by
    rw [runIters, runIters_eq_iterate k, Function.iterate_succ_apply]

/-! Claim C1: a call builds one search object, runs exactly `m` iterations
in order, and returns the best leaf's node set with the final tree. -/

/-- C1: for every graph, `n_min`, `nodes_to_keep`, and `exhaustive` flag, a
call of a `SubgraphX` instance constructs one search object and, when that
construction succeeds, executes exactly `m` sequential search iterations on
it (`m` the iteration budget fixed at construction) and returns the pair of
the best leaf's node set and the full search tree; the returned tree is the
`m`-iteration tree, so no iteration runs after the best leaf is extracted. -/
theorem call_runs_m_iterations (inst : SubgraphX) (g : Data) (n : Nat)
    (ntk : Option (List Nat)) (ex : Bool) (st0 : MCTS)
    (h : inst.get_mcts g n (ntk.getD []) ex = .ok st0) :
    inst.call g n ntk ex
      = .ok ((MCTS.search_one_iteration^[inst.m] st0).best_leaf_node.node_set,
        MCTS.search_one_iteration^[inst.m] st0) := by
  rcases ntk with _ | l <;>
    · simp only [Option.getD] at h
      simp only [SubgraphX.call, SubgraphX.callS, h]
      rw [runIters_eq_iterate]

/-! Claim C4: invalid configurations fail with `InvalidConfiguration`. -/

/-- C4: for every call of a `SubgraphX` instance where `n_min` exceeds the
number of nodes in the given graph, or where a node listed in
`nodes_to_keep` is not a node of the graph, the call fails with an
`InvalidConfiguration` error instead of returning an explanation. -/
theorem invalid_configuration_errors (inst : SubgraphX) (g : Data) (n : Nat)
    (keep : List Nat) (ex : Bool)
    (h : g.numNodes < n ∨ ∃ v ∈ keep, ¬v < g.numNodes) :
    inst.call g n (some keep) ex
      = .error SubgraphXError.invalidConfiguration := by
  have hcond : (decide (n ≤ g.numNodes)
      && keep.all (fun v => decide (v < g.numNodes))) = false := by
    rcases h with h | ⟨v, hv, hlt⟩
    · have : decide (n ≤ g.numNodes) = false :=
        decide_eq_false (Nat.not_le.mpr h)
      rw [this, Bool.false_and]
    · have : keep.all (fun v => decide (v < g.numNodes)) = false := by
        rw [← Bool.not_eq_true, List.all_eq_true]
        push_neg
        exact ⟨v, hv, by simpa using hlt⟩
      rw [this, Bool.and_false]
  simp only [SubgraphX.call, SubgraphX.callS, get_mcts_eq, MCTS.init, mkCfg]
  rw [hcond]
  simp

/-! Claim C5: with a fixed sampling seed (the model here fixes the seed
inside `mc_l_shapley`) and a deterministic model and value function, two
calls with identical configuration return identical results — in particular
an identical explanation node set and identical visit-count and value
statistics in the returned search tree. -/

/-- C5: if the model/scorer and the value function of two instances agree
pointwise (deterministic scorer, fixed sampling seed) and all other
configuration fields coincide, then calls on the same graph, `n_min`,
`nodes_to_keep` and `exhaustive` flag return equal values: the explanation
node sets are identical and the returned trees carry identical `N` and `W`
statistics. -/
theorem call_deterministic (mo1 mo2 : Model) (f1 f2 : ValueFunc)
    (L : Nat) (w : ℚ) (m t : Nat) (h2l : Bool) (mc : Int) (task : Task)
    (expq : Option Experiment) (g : Data) (n : Nat)
    (ntk : Option (List Nat)) (ex : Bool)
    (hmo : ∀ gr S, mo1 gr S = mo2 gr S)
    (hf : ∀ gr mdl a b S, f1 gr mdl a b S = f2 gr mdl a b S) :
    SubgraphX.call ⟨mo1, L, w, m, t, f1, h2l, mc, task, expq⟩ g n ntk ex
      = SubgraphX.call ⟨mo2, L, w, m, t, f2, h2l, mc, task, expq⟩ g n ntk ex := by
  have h1 : mo1 = mo2 := funext fun gr => funext fun S => hmo gr S
  have h2 : f1 = f2 := funext fun gr => funext fun mdl => funext fun a =>
    funext fun b => funext fun S => hf gr mdl a b S
  rw [h1, h2]

/-! Claim C6: the search is constructed with `skip_to_leaves` equal to the
negation of the `exhaustive` argument. -/

/-- C6: for every call configuration, the search constructed by `_get_mcts`
has `skip_to_leaves = not exhaustive`; in particular `exhaustive = false`
(the default) enables the skip-to-leaves expansion mode, which within a
single iteration descends to a terminal node set — one of size at most
`n_min` or one whose legal pruning actions are exhausted. -/
theorem skip_to_leaves_wiring (inst : SubgraphX) (g : Data) (n : Nat)
    (keep : List Nat) (ex : Bool) (st : MCTS)
    (h : inst.get_mcts g n keep ex = .ok st) :
    st.cfg.skip_to_leaves = !ex
    ∧ (ex = false → ∃ nd ∈ st.search_one_iteration.nodes,
        isTerm st.cfg nd.node_set = true) := by
  rw [get_mcts_eq] at h
  unfold MCTS.init at h
  split at h
  · injection h with h
    subst h
    refine ⟨rfl, ?_⟩
    intro hex
    subst hex
    refine stepNodes_hasTerm_root _ rfl _ (by simp) rfl ?_
    simp [rootNode]
  · simp at h

/-- The invariant "contains every retained node and has no duplicates" is
closed under legal pruning actions, which never remove a retained node. -/
theorem keepInv_closed (cfg : MCTSConfig) :
    ∀ (S : List Nat) (v : Nat),
    ((∀ u ∈ cfg.nodes_to_keep, u ∈ S) ∧ S.Nodup) →
    v ∈ prunedCandidates cfg S →
    (∀ u ∈ cfg.nodes_to_keep, u ∈ S.erase v) ∧ (S.erase v).Nodup := by
  intro S v hQ hv
  obtain ⟨hkeep, hnd⟩ := hQ
  obtain ⟨_, hvk⟩ := mem_prunedCandidates hv
  refine ⟨?_, hnd.erase v⟩
  intro u hu
  have hne : u ≠ v := fun he => hvk (he ▸ hu)
  exact (List.mem_erase_of_ne hne).mpr (hkeep u hu)

theorem sortByLe_eq_nil {le : Nat → Nat → Bool} {l : List Nat}
    (h : sortByLe le l = []) : l = [] := by
  cases l with
  | nil => rfl
  | cons x xs =>
    have hx : x ∈ sortByLe le (x :: xs) :=
      mem_sortByLe.mpr (List.mem_cons_self x xs)
    rw [h] at hx
    simp at hx

theorem length_le_dedup_of_subset {S keep : List Nat} (hnd : S.Nodup)
    (hsub : ∀ v ∈ S, v ∈ keep) : S.length ≤ keep.dedup.length := by
  have h1 : S.toFinset.card = S.length := by
    rw [List.card_toFinset, hnd.dedup]
  have h2 : S.toFinset ⊆ keep.toFinset := by
    intro x hx
    rw [List.mem_toFinset] at hx ⊢
    exact hsub x hx
  have h3 := Finset.card_le_card h2
  rw [h1, List.card_toFinset] at h3
  exact h3

/-- Node-set facts of every successful call: every arena node set contains
the retained nodes and is duplicate-free, the explanation is the best leaf's
node set, the best leaf belongs to the arena, and the tree carries the
configuration built by `_get_mcts`. -/
theorem call_ok_nodeSets (inst : SubgraphX) (g : Data) (n : Nat)
    (keep : List Nat) (ex : Bool) (ns : List Nat) (tree : MCTS)
    (h : inst.call g n (some keep) ex = .ok (ns, tree)) :
    (∀ nd ∈ tree.nodes, (∀ v ∈ keep, v ∈ nd.node_set) ∧ nd.node_set.Nodup)
    ∧ ns = tree.best_leaf_node.node_set
    ∧ tree.best_leaf_node ∈ tree.nodes
    ∧ tree.cfg = mkCfg inst g n keep ex
    ∧ tree = runIters (MCTS.mk (mkCfg inst g n keep ex)
        [rootNode (mkCfg inst g n keep ex)]) inst.m := by
  obtain ⟨hvalid, htree, hns⟩ := call_ok_elim inst g n keep ex ns tree h
  have hcfg : tree.cfg = mkCfg inst g n keep ex := by
    rw [htree, runIters_cfg]
  rw [Bool.and_eq_true] at hvalid
  obtain ⟨_, hkeepb⟩ := hvalid
  rw [List.all_eq_true] at hkeepb
  have hrootQ : ∀ nd ∈ [rootNode (mkCfg inst g n keep ex)],
      (∀ v ∈ keep, v ∈ nd.node_set) ∧ nd.node_set.Nodup := by
    intro nd hnd
    rw [List.mem_singleton] at hnd
    subst hnd
    constructor
    · intro v hv
      exact List.mem_range.mpr (of_decide_eq_true (hkeepb v hv))
    · exact List.nodup_range _
  have hinv := runIters_inv (fun S => (∀ v ∈ keep, v ∈ S) ∧ S.Nodup) inst.m
    (MCTS.mk (mkCfg inst g n keep ex) [rootNode (mkCfg inst g n keep ex)])
    (keepInv_closed (mkCfg inst g n keep ex)) hrootQ
  have hinvTree : ∀ nd ∈ tree.nodes,
      (∀ v ∈ keep, v ∈ nd.node_set) ∧ nd.node_set.Nodup := by
    rw [htree]
    exact hinv
  have hne : tree.nodes ≠ [] := by
    have hpos : 0 < tree.nodes.length := by
      rw [htree]
      exact lt_of_lt_of_le (by simp)
        (runIters_length (MCTS.mk (mkCfg inst g n keep ex)
          [rootNode (mkCfg inst g n keep ex)]) inst.m)
    exact List.length_pos.mp hpos
  exact ⟨hinvTree, hns, best_leaf_node_mem tree hne, hcfg, htree⟩

/-! Claim C2: every node set produced during the search and the returned
explanation contain all mandatory retained nodes. -/

/-- C2: for every explanation request, every node set stored in the returned
search tree and the final returned explanation node set contain all of the
mandatory retained nodes of `nodes_to_keep` (in particular for the non-empty
lists used by node classification and link prediction). -/
theorem call_keeps_retained_nodes (inst : SubgraphX) (g : Data) (n : Nat)
    (keep : List Nat) (ex : Bool) (ns : List Nat) (tree : MCTS)
    (h : inst.call g n (some keep) ex = .ok (ns, tree)) :
    (∀ nd ∈ tree.nodes, ∀ v ∈ keep, v ∈ nd.node_set)
    ∧ ∀ v ∈ keep, v ∈ ns := by
  obtain ⟨hinv, hns, hmem, _, _⟩ := call_ok_nodeSets inst g n keep ex ns tree h
  refine ⟨fun nd hnd => (hinv nd hnd).1, ?_⟩
  rw [hns]
  exact (hinv _ hmem).1

/-! Claim C3: in non-exhaustive mode the returned node set has size at most
`n_min`, unless the legal pruning actions were exhausted above that size. -/

/-- C3: when a `SubgraphX` instance with a positive iteration budget is
called with `exhaustive = false`, the returned node set has size at most
`n_min`, unless no node set of size at most `n_min` is reachable because the
legal pruning actions were exhausted at the returned set — which, with an
unbounded branching cap, happens exactly when more than `n_min` distinct
retained nodes block every further pruning action. -/
theorem call_nonexhaustive_size (inst : SubgraphX) (g : Data) (n : Nat)
    (keep : List Nat) (ns : List Nat) (tree : MCTS)
    (h : inst.call g n (some keep) false = .ok (ns, tree)) (hm : 0 < inst.m) :
    ns.length ≤ n
    ∨ (prunedCandidates tree.cfg ns = []
       ∧ (inst.max_children = -1 → n < keep.dedup.length)) := by
  obtain ⟨hinv, hns, hmem, hcfg, htree⟩ :=
    call_ok_nodeSets inst g n keep false ns tree h
  by_cases hle : ns.length ≤ n
  · exact Or.inl hle
  · obtain ⟨k, hk⟩ : ∃ k, inst.m = k + 1 := ⟨inst.m - 1, by omega⟩
    have hfirst : ∃ nd ∈ (MCTS.mk (mkCfg inst g n keep false)
          [rootNode (mkCfg inst g n keep false)]).search_one_iteration.nodes,
        isTerm (MCTS.mk (mkCfg inst g n keep false)
          [rootNode (mkCfg inst g n keep false)]).search_one_iteration.cfg
          nd.node_set = true :=
      stepNodes_hasTerm_root (mkCfg inst g n keep false) rfl
        [rootNode (mkCfg inst g n keep false)] (by simp) rfl
        (by simp [rootNode, mkCfg])
    have hterm0 := hasTerm_runIters _ k hfirst
    have hterm : ∃ nd ∈ tree.nodes, isTerm tree.cfg nd.node_set = true := by
      rw [htree, hk, runIters, runIters_cfg]
      exact hterm0
    obtain ⟨_, hbt⟩ := best_leaf_node_isTerm tree hterm
    rw [← hns] at hbt
    rw [isTerm, Bool.or_eq_true] at hbt
    rcases hbt with hbt | hbt
    · have hlen : ns.length ≤ tree.cfg.n_min := of_decide_eq_true hbt
      rw [hcfg] at hlen
      exact absurd hlen hle
    · have hempty : prunedCandidates tree.cfg ns = [] := List.isEmpty_iff.mp hbt
      refine Or.inr ⟨hempty, ?_⟩
      intro hmc
      rw [hcfg] at hempty
      simp only [prunedCandidates, mkCfg] at hempty
      rw [hmc] at hempty
      norm_num at hempty
      have hbase := sortByLe_eq_nil hempty
      have hsub : ∀ v ∈ ns, v ∈ keep := by
        intro v hv
        by_contra hnk
        have hvf : v ∈ ns.filter (fun v => !decide (v ∈ keep)) :=
          List.mem_filter.mpr ⟨hv, by simp [hnk]⟩
        rw [hbase] at hvf
        simp at hvf
      have hnd : ns.Nodup := by
        rw [hns]
        exact (hinv _ hmem).2
      have := length_le_dedup_of_subset hnd hsub
      omega

/-! Claim C7: the default scoring strategy is `mc_l_shapley`, and the
configured value function is the one that initializes newly expanded nodes
and ranks leaves. -/

/-- C7: a `SubgraphX` instance constructed without an explicit `value_func`
argument carries `mc_l_shapley` as its scoring strategy, the search is
constructed with exactly the instance's value function (so supplying a
different `value_func` replaces it without changing the wiring), every newly
expanded child is initialized with the configured value function's score
(`N = 1`, `W = immediate_value`), and `best_leaf_node` ranks leaves by that
immediate value: no discovered terminal node beats the returned one. -/
theorem value_func_wiring :
    (∀ (mo : Model) (L : Nat) (w : ℚ) (m t : Nat),
      (SubgraphX.make mo L w m t).value_func = mc_l_shapley)
    ∧ (∀ (inst : SubgraphX) (g : Data) (n : Nat) (keep : List Nat) (ex : Bool)
        (st : MCTS), inst.get_mcts g n keep ex = .ok st →
        st.cfg.value_func = inst.value_func)
    ∧ (∀ (cfg : MCTSConfig) (i : Nat) (S : List Nat) (v : Nat),
        (mkChild cfg i S v).immediate_value
          = cfg.value_func cfg.graph cfg.model cfg.t cfg.num_layers (S.erase v)
        ∧ (mkChild cfg i S v).W
          = cfg.value_func cfg.graph cfg.model cfg.t cfg.num_layers (S.erase v)
        ∧ (mkChild cfg i S v).N = 1)
    ∧ (∀ (st : MCTS) (nd : MCTSNode), nd ∈ st.nodes →
        isTerm st.cfg nd.node_set = true →
        nd.immediate_value ≤ st.best_leaf_node.immediate_value) := by
  refine ⟨fun _ _ _ _ _ => rfl, ?_, fun _ _ _ _ => ⟨rfl, rfl, rfl⟩,
    best_leaf_node_ge⟩
  intro inst g n keep ex st h
  rw [get_mcts_eq] at h
  unfold MCTS.init at h
  split at h
  · injection h with h
    subst h
    rfl
  · simp at h

/-! Concrete configuration used by the witnesses: a two-node graph with one
edge, a constant scorer and value function, and an iteration budget of one. -/

def modelW : Model := fun _ _ => 0

def vfW : ValueFunc := fun _ _ _ _ _ => 0

def graphW : Data := { numNodes := 2, edges := [(0, 1)] }

def instW : SubgraphX :=
  { model := modelW, num_layers := 1, exp_weight := 0, m := 1, t := 1,
    value_func := vfW, high2low := false, max_children := -1,
    task := Task.node_classification, experiment := none }

def cfgW0 : MCTSConfig := mkCfg instW graphW 1 [] false

def stW0 : MCTS := { cfg := cfgW0, nodes := [rootNode cfgW0] }

def pairW : List Nat × MCTS :=
  match instW.call graphW 1 (some [0]) false with
  | .ok p => p
  | .error _ => ([], stW0)

def stTermW : MCTS := { cfg := cfgW0, nodes := [dfltNode] }

theorem call_runs_m_iterations_witness :
    instW.call graphW 1 none false
      = .ok ((MCTS.search_one_iteration^[instW.m] stW0).best_leaf_node.node_set,
        MCTS.search_one_iteration^[instW.m] stW0) :=
  call_runs_m_iterations instW graphW 1 none false stW0 rfl

theorem call_keeps_retained_nodes_witness : 0 ∈ pairW.1 :=
  (call_keeps_retained_nodes instW graphW 1 [0] false pairW.1 pairW.2 rfl).2 0
    (List.mem_cons_self 0 [])

theorem call_nonexhaustive_size_witness :
    pairW.1.length ≤ 1
    ∨ (prunedCandidates pairW.2.cfg pairW.1 = []
       ∧ (instW.max_children = -1 → 1 < ([0] : List Nat).dedup.length)) :=
  call_nonexhaustive_size instW graphW 1 [0] pairW.1 pairW.2 rfl (by decide)

theorem invalid_configuration_errors_witness :
    instW.call graphW 3 (some []) false
      = .error SubgraphXError.invalidConfiguration :=
  invalid_configuration_errors instW graphW 3 [] false (Or.inl (by decide))

theorem call_deterministic_witness :
    SubgraphX.call ⟨modelW, 1, 0, 1, 1, vfW, false, -1,
        Task.graph_classification, none⟩ graphW 1 none false
      = SubgraphX.call ⟨modelW, 1, 0, 1, 1, vfW, false, -1,
        Task.graph_classification, none⟩ graphW 1 none false :=
  call_deterministic modelW modelW vfW vfW 1 0 1 1 false (-1)
    Task.graph_classification none graphW 1 none false
    (fun _ _ => rfl) (fun _ _ _ _ _ => rfl)

theorem skip_to_leaves_wiring_witness :
    stW0.cfg.skip_to_leaves = !false
    ∧ (false = false → ∃ nd ∈ stW0.search_one_iteration.nodes,
        isTerm stW0.cfg nd.node_set = true) :=
  skip_to_leaves_wiring instW graphW 1 [] false stW0 rfl

theorem value_func_wiring_witness :
    (SubgraphX.make modelW 1 0 1 1).value_func = mc_l_shapley
    ∧ stW0.cfg.value_func = instW.value_func
    ∧ (mkChild cfgW0 0 [0, 1] 1).N = 1
    ∧ dfltNode.immediate_value ≤ stTermW.best_leaf_node.immediate_value :=
  ⟨value_func_wiring.1 modelW 1 0 1 1,
   value_func_wiring.2.1 instW graphW 1 [] false stW0 rfl,
   (value_func_wiring.2.2.1 cfgW0 0 [0, 1] 1).2.2,
   value_func_wiring.2.2.2 stTermW dfltNode (List.mem_cons_self _ _) rfl⟩

end SubgraphXModel
